import Mathlib

/-!
# Verification of the Blotto solver (`src/main.py`)

Shallow embedding of the core functions of the Colonel Blotto equilibrium
engine.  Python ints are modelled as `Int` (or `Nat` where the value is known
non-negative), Python floats as `ℚ` (exact arithmetic), Python lists as
`List`.  Indexing `l[i]` inside loops whose ranges keep `i` in bounds is
modelled with `List.getD i 0`.
-/

namespace Blotto

/-- Python `range(n)` for an `int` argument: empty when `n ≤ 0`. -/
def pyRange (n : Int) : List Int :=
  (List.range n.toNat).map (fun (i : Nat) => (i : Int))

/-- `itertools.product(r, repeat=k)`: all `k`-tuples over `r`, first
coordinate varying slowest, as in Python. -/
def pyProduct (r : List Int) : Nat → List (List Int)
  | 0 => [[]]
  | k + 1 => r.flatMap (fun x => (pyProduct r k).map (fun t => x :: t))

/-- `int(q)` on a rational: truncation toward zero. -/
def pyInt (q : ℚ) : Int :=
  if 0 ≤ q then ⌊q⌋ else -⌊-q⌋

/-- `get_pure_strategies(units, values)` (src/main.py lines 6–24):
all tuples in `product(range(units+1), repeat=len(values))` whose sum is
`units`. -/
def get_pure_strategies (units : Int) (values : List ℚ) : List (List Int) :=
  let num_battlefields := values.length
  (pyProduct (pyRange (units + 1)) num_battlefields).filter
    (fun combo => combo.sum == units)

/-- The per-battlefield win probability used by the `lottery` branch
(src/main.py lines 66–70): `1/2` on equal allocations, otherwise
`a²/(a²+b²)`. -/
def lottery_prob (a b : ℚ) : ℚ :=
  if a = b then 1/2 else a * a / (a * a + b * b)

/-- `get_expected_value_pure_strategies(strategy1, strategy2, values, obj)`
(src/main.py lines 26–73).  The accumulation loops over
`range(num_battlefields)` are rendered as sums over `List.range`. -/
def get_expected_value_pure_strategies
    (strategy1 strategy2 values : List ℚ) (obj : String) : ℚ :=
  let num_battlefields := values.length
  if obj = "score" then
    ((List.range num_battlefields).map (fun i =>
      if strategy1.getD i 0 > strategy2.getD i 0 then values.getD i 0
      else if strategy1.getD i 0 = strategy2.getD i 0 then values.getD i 0 / 2
      else 0)).sum
  else if obj = "win" then
    let p1_score := ((List.range num_battlefields).map (fun i =>
      if strategy1.getD i 0 > strategy2.getD i 0 then values.getD i 0
      else if strategy1.getD i 0 = strategy2.getD i 0 then values.getD i 0 / 2
      else 0)).sum
    let p2_score := ((List.range num_battlefields).map (fun i =>
      if strategy1.getD i 0 > strategy2.getD i 0 then 0
      else if strategy1.getD i 0 = strategy2.getD i 0 then values.getD i 0 / 2
      else values.getD i 0)).sum
    if p1_score > p2_score then 1
    else if p1_score = p2_score then 1/2
    else 0
  else if obj = "lottery" then
    ((List.range num_battlefields).map (fun i =>
      lottery_prob (strategy1.getD i 0) (strategy2.getD i 0)
        * values.getD i 0)).sum
  else 0

/-- `get_expected_value_general_strategies` (src/main.py lines 75–94): the
probability-weighted double sum; the probability of each support entry is its
element at index `len(values)`. -/
def get_expected_value_general_strategies
    (g_strategy1 g_strategy2 : List (List ℚ)) (values : List ℚ)
    (obj : String) : ℚ :=
  let num_battlefields := values.length
  (g_strategy1.map (fun pure_strategy1 =>
    (g_strategy2.map (fun pure_strategy2 =>
      get_expected_value_pure_strategies pure_strategy1 pure_strategy2 values obj
        * pure_strategy1.getD num_battlefields 0
        * pure_strategy2.getD num_battlefields 0)).sum)).sum

/-- `get_payoff_matrix` (src/main.py lines 96–116); the integer strategies are
passed to the rational-valued evaluator, so they are cast pointwise. -/
def get_payoff_matrix (pure_strategies : List (List Int)) (values : List ℚ)
    (obj : String) : List (List ℚ) :=
  pure_strategies.map (fun si =>
    pure_strategies.map (fun sj =>
      get_expected_value_pure_strategies
        (si.map (fun (a : Int) => (a : ℚ))) (sj.map (fun (a : Int) => (a : ℚ))) values obj))

/-- `get_normalized_probability` (src/main.py lines 118–133): multiply every
entry by `1 / sum`. -/
def get_normalized_probability (probs : List ℚ) : List ℚ :=
  let sum_probs := probs.sum
  let multiply_factor := 1 / sum_probs
  probs.map (fun p => p * multiply_factor)

/-- The linear program handed to `scipy.optimize.linprog`
(src/main.py lines 190–197).  A bound of `(lo, none)` stands for
`(lo, float("inf"))`. -/
structure LinearProgram where
  c : List ℚ
  lhs_ineq : List (List ℚ)
  rhs_ineq : List ℚ
  lhs_eq : List (List ℚ)
  rhs_eq : List ℚ
  bounds : List (ℚ × Option ℚ)
deriving Repr

/-- `numpy.transpose` on a square list-of-lists matrix. -/
def np_transpose (M : List (List ℚ)) : List (List ℚ) :=
  (List.range M.length).map (fun j => M.map (fun row => row.getD j 0))

/-- The LP-construction part of `print_equilibrium_general_strategy`
(src/main.py lines 151–197): transpose the payoff matrix, negate each row and
append a `1` coefficient for `z`, zero right-hand sides, the normalization
equality `x₁ + ⋯ + xₙ = 1` with coefficient `0` for `z`, objective
`(0, …, 0, -1)`, bounds `(0,1)` on every `xᵢ` and `(0, ∞)` on `z`. -/
def build_lp (payoff_matrix : List (List ℚ)) : LinearProgram :=
  let payoff_matrix_transpose := np_transpose payoff_matrix
  let n := payoff_matrix_transpose.length
  { c := List.replicate n 0 ++ [-1]
    lhs_ineq := payoff_matrix_transpose.map
      (fun row => row.map (fun a => -a) ++ [1])
    rhs_ineq := List.replicate n 0
    lhs_eq := [List.replicate n 1 ++ [0]]
    rhs_eq := [1]
    bounds := List.replicate n (0, some 1) ++ [(0, none)] }

/-- The full LP built on the find path: payoff matrix of the enumerated
strategy space, then `build_lp`. -/
def find_lp (units : Int) (values : List ℚ) (obj : String) : LinearProgram :=
  build_lp (get_payoff_matrix (get_pure_strategies units values) values obj)

/-- Post-processing of the solver's solution vector on the find path
(src/main.py line 201): drop the trailing `z` component
(`opt.x[0:len(opt.x)-1]`) and renormalize. -/
def find_normalized (x : List ℚ) : List ℚ :=
  get_normalized_probability x.dropLast

/-- The lines printed by the output loop of `print_equilibrium_general_strategy`
(src/main.py lines 203–212): one `(allocations, probability)` row for every
index whose normalized probability is not within `1e-12` of zero.  The loop
also accumulates `sum_prob` over the printed rows, but the source never prints
it, so no further line is produced. -/
def find_output_rows (pure_strategies : List (List Int))
    (normalized_probs : List ℚ) : List (List Int × ℚ) :=
  (List.range pure_strategies.length).filterMap (fun i =>
    if |normalized_probs.getD i 0 - 0| ≤ 1e-12 then none
    else some (pure_strategies.getD i [], normalized_probs.getD i 0))

/-- The `sum_prob` accumulator of the same loop: the sum of the printed
probabilities. -/
def find_sum_prob (pure_strategies : List (List Int))
    (normalized_probs : List ℚ) : ℚ :=
  ((find_output_rows pure_strategies normalized_probs).map Prod.snd).sum

/-- Result of `verify_equilibrium_general_strategy`: either `PASSED`, or the
violation line data `E[X, (s)] = alt < eq` for the first offending pure
strategy `s`. -/
inductive VerifyResult where
  | Pass : VerifyResult
  | Violation (s : List Int)
      (alt_expected_value equilibrium_expected_value : ℚ) : VerifyResult
deriving DecidableEq, Repr

/-- The unit budget the verifier infers from the candidate
(src/main.py line 223): `int(sum(g_strategy[0][0:len(g_strategy[0])-1]))`. -/
def verifier_units (g_strategy : List (List ℚ)) : Int :=
  let first := g_strategy.headD []
  pyInt (first.take (first.length - 1)).sum

/-- The `alt_expected_value` of the verifier's loop body (src/main.py
line 229): the candidate's payoff against the pure strategy `s` with a
probability `1` appended (`s.append(1)`). -/
def verifier_alt (g_strategy : List (List ℚ)) (values : List ℚ) (obj : String)
    (s : List Int) : ℚ :=
  get_expected_value_general_strategies g_strategy
    [(s.map (fun (a : Int) => (a : ℚ))) ++ [1]] values obj

/-- The deviation-checking loop of `verify_equilibrium_general_strategy`
(src/main.py lines 227–233): scan the pure strategies in enumeration order and
return at the first one whose payoff against the candidate falls below the
equilibrium value minus tolerance. -/
def verify_loop (g_strategy : List (List ℚ)) (values : List ℚ) (tol : ℚ)
    (obj : String) (equilibrium_expected_value : ℚ) :
    List (List Int) → VerifyResult
  | [] => .Pass
  | s :: rest =>
    let alt_expected_value := verifier_alt g_strategy values obj s
    if alt_expected_value + tol < equilibrium_expected_value then
      .Violation s alt_expected_value equilibrium_expected_value
    else verify_loop g_strategy values tol obj equilibrium_expected_value rest

/-- `verify_equilibrium_general_strategy` (src/main.py lines 214–233): infer
the unit budget from the first support entry, enumerate the strategy space,
compute the self-play value, and scan for a violating pure deviation. -/
def verify_equilibrium_general_strategy (g_strategy : List (List ℚ))
    (values : List ℚ) (tol : ℚ) (obj : String) : VerifyResult :=
  let units := verifier_units g_strategy
  let pure_strategies := get_pure_strategies units values
  let equilibrium_expected_value := get_expected_value_general_strategies
    g_strategy g_strategy values obj
  verify_loop g_strategy values tol obj equilibrium_expected_value
    pure_strategies

/-! ## Helper lemmas -/

/-- Summing `l.getD i 0` over `range l.length` is just `l.sum`. -/
lemma sum_range_getD (l : List ℚ) :
    ((List.range l.length).map (fun i => l.getD i 0)).sum = l.sum := by
  induction l with
  | nil => simp
  | cons a t ih =>
    rw [List.length_cons, List.range_succ_eq_map]
    simp only [List.map_cons, List.map_map, List.sum_cons, Function.comp_def,
      List.getD_cons_zero, List.getD_cons_succ]
    rw [ih]

/-- The two `score`-style accumulations with the players swapped add up to the
total value. -/
lemma score_sum_swap (s1 s2 values : List ℚ) :
    ((List.range values.length).map (fun i =>
        if s1.getD i 0 > s2.getD i 0 then values.getD i 0
        else if s1.getD i 0 = s2.getD i 0 then values.getD i 0 / 2
        else 0)).sum
      + ((List.range values.length).map (fun i =>
        if s2.getD i 0 > s1.getD i 0 then values.getD i 0
        else if s2.getD i 0 = s1.getD i 0 then values.getD i 0 / 2
        else 0)).sum
      = values.sum := by
  rw [← List.sum_map_add, ← sum_range_getD values]
  apply congrArg
  apply List.map_congr_left
  intro i _
  rcases lt_trichotomy (s1.getD i 0) (s2.getD i 0) with h | h | h
  · rw [if_neg (asymm h), if_neg (ne_of_lt h), if_pos h]
    ring
  · have hgt : ¬ s1.getD i 0 > s2.getD i 0 := by rw [h]; exact lt_irrefl _
    have hgt2 : ¬ s2.getD i 0 > s1.getD i 0 := by rw [h]; exact lt_irrefl _
    rw [if_neg hgt, if_pos h, if_neg hgt2, if_pos h.symm]
    ring
  · rw [if_pos h, if_neg (asymm h), if_neg (ne_of_lt h)]
    ring

/-- The `p2_score` accumulation of the `win` branch is the `p1_score`
accumulation with the players swapped. -/
lemma p2_score_swap (s1 s2 values : List ℚ) :
    ((List.range values.length).map (fun i =>
        if s1.getD i 0 > s2.getD i 0 then 0
        else if s1.getD i 0 = s2.getD i 0 then values.getD i 0 / 2
        else values.getD i 0)).sum
      = ((List.range values.length).map (fun i =>
        if s2.getD i 0 > s1.getD i 0 then values.getD i 0
        else if s2.getD i 0 = s1.getD i 0 then values.getD i 0 / 2
        else 0)).sum := by
  apply congrArg
  apply List.map_congr_left
  intro i _
  rcases lt_trichotomy (s1.getD i 0) (s2.getD i 0) with h | h | h
  · rw [if_neg (asymm h), if_neg (ne_of_lt h), if_pos h]
  · have hgt : ¬ s1.getD i 0 > s2.getD i 0 := by rw [h]; exact lt_irrefl _
    have hgt2 : ¬ s2.getD i 0 > s1.getD i 0 := by rw [h]; exact lt_irrefl _
    rw [if_neg hgt, if_pos h, if_neg hgt2, if_pos h.symm]
  · rw [if_pos h, if_neg (asymm h), if_neg (ne_of_lt h)]

/-- The per-battlefield lottery probabilities of the two players add up
to `1`. -/
lemma lottery_prob_swap (a b : ℚ) : lottery_prob a b + lottery_prob b a = 1 := by
  unfold lottery_prob
  rcases eq_or_ne a b with h | h
  · rw [if_pos h, if_pos h.symm]
    norm_num
  · have hd : a * a + b * b ≠ 0 := by
      intro h0
      have ha : a = 0 := by nlinarith [mul_self_nonneg a, mul_self_nonneg b]
      have hb : b = 0 := by nlinarith [mul_self_nonneg a, mul_self_nonneg b]
      exact h (ha.trans hb.symm)
    rw [if_neg h, if_neg (Ne.symm h), add_comm (b * b) (a * a),
      div_add_div_same, div_self hd]

/-! ## C4: zero-sum property of the payoff evaluator -/

/-- **C4.** For pure strategies of equal length `K` and values of length `K`,
the payoffs of the two players add up to `values.sum` under `score` and
`lottery`, and to `1` under `win`. -/
theorem C4_payoffs_zero_sum (s1 s2 values : List ℚ) (K : Nat)
    (h1 : s1.length = K) (h2 : s2.length = K) (hv : values.length = K) :
    (get_expected_value_pure_strategies s1 s2 values "score"
        + get_expected_value_pure_strategies s2 s1 values "score"
      = values.sum)
    ∧ (get_expected_value_pure_strategies s1 s2 values "lottery"
        + get_expected_value_pure_strategies s2 s1 values "lottery"
      = values.sum)
    ∧ (get_expected_value_pure_strategies s1 s2 values "win"
        + get_expected_value_pure_strategies s2 s1 values "win"
      = 1) := by
  unfold get_expected_value_pure_strategies
  simp only [String.reduceEq, reduceIte]
  refine ⟨score_sum_swap s1 s2 values, ?_, ?_⟩
  · rw [← List.sum_map_add, ← sum_range_getD values]
    apply congrArg
    apply List.map_congr_left
    intro i _
    rw [← add_mul, lottery_prob_swap, one_mul]
  · rw [p2_score_swap s1 s2 values, p2_score_swap s2 s1 values]
    set A := ((List.range values.length).map (fun i =>
        if s1.getD i 0 > s2.getD i 0 then values.getD i 0
        else if s1.getD i 0 = s2.getD i 0 then values.getD i 0 / 2
        else 0)).sum with hA
    set B := ((List.range values.length).map (fun i =>
        if s2.getD i 0 > s1.getD i 0 then values.getD i 0
        else if s2.getD i 0 = s1.getD i 0 then values.getD i 0 / 2
        else 0)).sum with hB
    rcases lt_trichotomy A B with h | h | h
    · rw [if_neg (asymm h), if_neg (ne_of_lt h), if_pos h]
      ring
    · have hgt : ¬ A > B := by rw [h]; exact lt_irrefl _
      have hgt2 : ¬ B > A := by rw [h]; exact lt_irrefl _
      rw [if_neg hgt, if_pos h, if_neg hgt2, if_pos h.symm]
      ring
    · rw [if_pos h, if_neg (asymm h), if_neg (ne_of_lt h)]
      ring

/-- **C4 witness.** -/
theorem C4_payoffs_zero_sum_witness :
    get_expected_value_pure_strategies [1, 2] [2, 1] [1, 3] "score"
        + get_expected_value_pure_strategies [2, 1] [1, 2] [1, 3] "score"
      = ([1, 3] : List ℚ).sum :=
  (C4_payoffs_zero_sum [1, 2] [2, 1] [1, 3] 2 rfl rfl rfl).1

/-! ## C5: the lottery objective never divides by zero -/

/-- A sum of two squares of rationals is zero only if both are zero. -/
lemma sum_sq_ne_zero {a b : ℚ} (h : ¬ (a = 0 ∧ b = 0)) : a * a + b * b ≠ 0 := by
  intro h0
  apply h
  constructor <;> nlinarith [mul_self_nonneg a, mul_self_nonneg b]

/-- **C5.** The per-battlefield lottery probability is `1/2` when both
allocations are zero (no division by zero happens there), equals
`a²/(a²+b²)` with a provably nonzero denominator whenever the allocations are
not both zero, and the `lottery` payoff is the sum of probability times value
over the battlefields. -/
theorem C5_lottery_no_div_by_zero (s1 s2 values : List ℚ) :
    (∀ a b : ℚ,
      (a = 0 ∧ b = 0 → lottery_prob a b = 1/2)
      ∧ (¬ (a = 0 ∧ b = 0) →
          lottery_prob a b = a * a / (a * a + b * b) ∧ a * a + b * b ≠ 0))
    ∧ get_expected_value_pure_strategies s1 s2 values "lottery"
      = ((List.range values.length).map (fun i =>
          lottery_prob (s1.getD i 0) (s2.getD i 0) * values.getD i 0)).sum := by
  constructor
  · intro a b
    constructor
    · rintro ⟨rfl, rfl⟩
      simp [lottery_prob]
    · intro hne
      refine ⟨?_, sum_sq_ne_zero hne⟩
      unfold lottery_prob
      rcases eq_or_ne a b with h | h
      · have ha : a ≠ 0 := by
          intro h0
          exact hne ⟨h0, h ▸ h0⟩
        rw [if_pos h, ← h]
        have haa : a * a ≠ 0 := mul_ne_zero ha ha
        field_simp
      · rw [if_neg h]
  · unfold get_expected_value_pure_strategies
    simp only [String.reduceEq, reduceIte]

/-- **C5 witness.** -/
theorem C5_lottery_no_div_by_zero_witness :
    lottery_prob 0 0 = 1/2
    ∧ (lottery_prob 1 2 = 1 * 1 / (1 * 1 + 2 * 2)
        ∧ (1 * 1 + 2 * 2 : ℚ) ≠ 0) := by
  have h := C5_lottery_no_div_by_zero [] [] []
  exact ⟨(h.1 0 0).1 ⟨rfl, rfl⟩, (h.1 1 2).2 (by norm_num)⟩

/-! ## C6: the find path drops `z` and renormalizes -/

/-- Multiplying every entry of a list by a constant multiplies the sum. -/
lemma sum_map_mul_const (l : List ℚ) (c : ℚ) :
    (l.map (fun p => p * c)).sum = l.sum * c := by
  induction l with
  | nil => simp
  | cons a t ih => simp [ih, add_mul]

/-- **C6.** The find path drops the trailing `z` component of the solution
vector and renormalizes the remaining components: every entry gets divided by
the sum, so the resulting probabilities sum to exactly `1` (hence within
`1e-9` of `1.0`), whatever solver drift the raw components carried. -/
theorem C6_renormalization (x : List ℚ) (h : x.dropLast.sum ≠ 0) :
    find_normalized x = x.dropLast.map (fun p => p / x.dropLast.sum)
    ∧ (find_normalized x).length = x.length - 1
    ∧ (find_normalized x).sum = 1
    ∧ |(find_normalized x).sum - 1| < 1e-9 := by
  have hmap : find_normalized x
      = x.dropLast.map (fun p => p / x.dropLast.sum) := by
    unfold find_normalized get_normalized_probability
    simp only [div_eq_mul_inv, one_mul]
  have hsum : (find_normalized x).sum = 1 := by
    rw [hmap]
    simp only [div_eq_mul_inv]
    rw [sum_map_mul_const, mul_inv_cancel₀ h]
  refine ⟨hmap, ?_, hsum, ?_⟩
  · unfold find_normalized get_normalized_probability
    rw [List.length_map, List.length_dropLast]
  · rw [hsum]
    norm_num

/-- **C6 witness**: solver drift summing to `1.0000000002` is rescaled to an
exact unit sum. -/
theorem C6_renormalization_witness :
    (find_normalized [1/2, 1/2 + 1/5000000000, 7]).sum = 1
    ∧ |(find_normalized [1/2, 1/2 + 1/5000000000, 7]).sum - 1| < 1e-9 := by
  have h := C6_renormalization [1/2, 1/2 + 1/5000000000, 7]
    (by norm_num [List.dropLast])
  exact ⟨h.2.2.1, h.2.2.2⟩

/-! ## C7: the concrete `score` evaluation -/

/-- **C7 counterexample.** The claimed value `2.5` is wrong for
`get_expected_value_pure_strategies([1,2,2],[3,2,0],[1,2,3],"score")`. -/
theorem C7_counterexample :
    get_expected_value_pure_strategies [1, 2, 2] [3, 2, 0] [1, 2, 3] "score"
      ≠ 5/2 := by
  norm_num [get_expected_value_pure_strategies, List.range_succ]

/-- **C7 amended.** The evaluation returns `4`: battlefield 0 is lost (`0`),
battlefield 1 ties (`2/2 = 1`), battlefield 2 is won (`3`). -/
theorem C7_amended :
    get_expected_value_pure_strategies [1, 2, 2] [3, 2, 0] [1, 2, 3] "score"
      = 4 := by
  norm_num [get_expected_value_pure_strategies, List.range_succ]

/-! ## C10: unrecognized objectives silently evaluate to zero -/

/-- **C10.** Any objective string other than `score`, `win`, `lottery` makes
the payoff evaluator return `0` for all inputs, with no error raised. -/
theorem C10_unknown_objective_returns_zero (obj : String)
    (h1 : obj ≠ "score") (h2 : obj ≠ "win") (h3 : obj ≠ "lottery")
    (s1 s2 values : List ℚ) :
    get_expected_value_pure_strategies s1 s2 values obj = 0 := by
  unfold get_expected_value_pure_strategies
  rw [if_neg h1, if_neg h2, if_neg h3]

/-- **C10 witness.** -/
theorem C10_unknown_objective_returns_zero_witness :
    get_expected_value_pure_strategies [1] [2] [3] "payoff" = 0 :=
  C10_unknown_objective_returns_zero "payoff" (by decide) (by decide)
    (by decide) [1] [2] [3]

/-! ## C8: behaviour of the enumerator on invalid inputs -/

/-- **C8 counterexample.** With a negative unit budget the enumerator does not
fail: it returns normally (with the empty list), refuting the claimed
`InvalidInput` error. -/
theorem C8_counterexample : get_pure_strategies (-1) [7] = [] := by decide

/-- **C8 amended.** For `N < 0` or `K < 1` the enumerator returns normally
rather than failing: the empty list for `N < 0` with `K ≥ 1`, and for `K = 0`
the list `[[]]` when `N = 0` and `[]` otherwise (Python raises nothing;
`range(units+1)` is simply empty for negative `units`). -/
theorem C8_amended (units : Int) (values : List ℚ) :
    (units < 0 → 1 ≤ values.length → get_pure_strategies units values = [])
    ∧ (values.length = 0 →
        get_pure_strategies units values = if units = 0 then [[]] else []) := by
  constructor
  · intro hu hlen
    have hr : pyRange (units + 1) = [] := by
      have h0 : (units + 1).toNat = 0 := by omega
      simp [pyRange, h0]
    obtain ⟨k, hk⟩ : ∃ k, values.length = k + 1 := ⟨values.length - 1, by omega⟩
    simp [get_pure_strategies, hk, hr, pyProduct]
  · intro hlen
    by_cases h0 : units = 0
    · simp [get_pure_strategies, hlen, pyProduct, h0]
    · simp [get_pure_strategies, hlen, pyProduct, h0]
      omega

/-- **C8 witness.** -/
theorem C8_amended_witness : get_pure_strategies (-1) [5] = [] := by
  have h := C8_amended (-1) [5]
  exact h.1 (by decide) (by decide)

/-! ## C9: the find output -/

/-- **C9.** Evaluating the output loop of the find path at a concrete
instance: the printed lines are exactly the support rows (allocations with
their probability); the `sum_prob` accumulator holds the probability sum `1`,
but the source never prints it, so no sanity line follows the rows. -/
theorem C9_output_rows_only :
    find_output_rows [[1, 0], [0, 1]] [1/2, 1/2]
      = [([1, 0], 1/2), ([0, 1], 1/2)]
    ∧ find_sum_prob [[1, 0], [0, 1]] [1/2, 1/2] = 1 := by
  constructor
  · norm_num [find_output_rows, List.range_succ, List.filterMap_cons,
      abs_of_nonneg]
  · norm_num [find_sum_prob, find_output_rows, List.range_succ,
      List.filterMap_cons, abs_of_nonneg]

/-! ## C2: the linear program handed to the solver -/

/-- `getD` after `map` evaluates `f` at the underlying entry. -/
lemma getD_map {α β : Type} (l : List α) (f : α → β) (i : Nat) (d : α)
    (hi : i < l.length) (d2 : β) : (l.map f).getD i d2 = f (l.getD i d) := by
  rw [List.getD_eq_getElem?_getD, List.getElem?_map, List.getElem?_eq_getElem hi,
    List.getD_eq_getElem?_getD, List.getElem?_eq_getElem hi]
  rfl

/-- `getD` just past a list reads the appended element. -/
lemma getD_append_length {β : Type} (l : List β) (a d : β) :
    (l ++ [a]).getD l.length d = a := by
  rw [List.getD_eq_getElem?_getD, List.getElem?_append_right (le_refl _)]
  simp

/-- `getD` on `List.range`. -/
lemma getD_range (n j : Nat) (hj : j < n) : (List.range n).getD j 0 = j := by
  rw [List.getD_eq_getElem?_getD, List.getElem?_range hj]
  rfl

/-- **C2.** For an `n × n` payoff matrix `M`, the find path builds the LP
with objective `(0, …, 0, -1)`, one inequality row
`(-M[0][j], …, -M[n-1][j], 1)` per pure strategy `j` with right-hand side `0`,
the single equality row `(1, …, 1, 0)` with right-hand side `1`, bounds
`0 ≤ xᵢ ≤ 1` and `0 ≤ z < ∞`. -/
theorem C2_lp_formulation (M : List (List ℚ)) (n : Nat) (hn : M.length = n)
    (hsq : ∀ row ∈ M, row.length = n) :
    (build_lp M).c = List.replicate n 0 ++ [-1]
    ∧ (build_lp M).rhs_ineq = List.replicate n 0
    ∧ (build_lp M).lhs_eq = [List.replicate n 1 ++ [0]]
    ∧ (build_lp M).rhs_eq = [1]
    ∧ (build_lp M).bounds = List.replicate n ((0 : ℚ), some 1) ++ [(0, none)]
    ∧ (build_lp M).lhs_ineq.length = n
    ∧ (∀ j, j < n →
        ((build_lp M).lhs_ineq.getD j []).length = n + 1
        ∧ (∀ i, i < n → ((build_lp M).lhs_ineq.getD j []).getD i 0
            = -((M.getD i []).getD j 0))
        ∧ ((build_lp M).lhs_ineq.getD j []).getD n 0 = 1) := by
  have hMt : np_transpose M
      = (List.range n).map (fun j => M.map (fun row => row.getD j 0)) := by
    rw [np_transpose, hn]
  have hMtlen : (np_transpose M).length = n := by rw [hMt]; simp
  have hineq : (build_lp M).lhs_ineq
      = (np_transpose M).map (fun row => row.map (fun a => -a) ++ [1]) := rfl
  refine ⟨?_, ?_, ?_, ?_, ?_, ?_, ?_⟩
  · show List.replicate (np_transpose M).length (0 : ℚ) ++ [-1] = _
    rw [hMtlen]
  · show List.replicate (np_transpose M).length (0 : ℚ) = _
    rw [hMtlen]
  · show [List.replicate (np_transpose M).length (1 : ℚ) ++ [0]] = _
    rw [hMtlen]
  · rfl
  · show List.replicate (np_transpose M).length ((0 : ℚ), some (1 : ℚ))
        ++ [(0, none)] = _
    rw [hMtlen]
  · rw [hineq, List.length_map, hMtlen]
  · intro j hj
    have hrowj : (np_transpose M).getD j []
        = M.map (fun row => row.getD j 0) := by
      rw [hMt, getD_map _ _ j 0 (by simpa using hj), getD_range n j hj]
    have hrow : (build_lp M).lhs_ineq.getD j []
        = (M.map (fun row => row.getD j 0)).map (fun a => -a) ++ [1] := by
      rw [hineq, getD_map _ _ j [] (by rw [hMtlen]; exact hj), hrowj]
    refine ⟨?_, ?_, ?_⟩
    · rw [hrow]
      simp [hn]
    · intro i hi
      rw [hrow, List.map_map, List.getD_eq_getElem?_getD,
        List.getElem?_append_left (by simp [hn]; exact hi),
        ← List.getD_eq_getElem?_getD, getD_map _ _ i [] (by rw [hn]; exact hi)]
      rfl
    · rw [hrow]
      have hlen : n = ((M.map (fun row => row.getD j 0)).map (fun a => -a)).length := by
        simp [hn]
      rw [hlen, getD_append_length]

/-- **C2 witness.** -/
theorem C2_lp_formulation_witness :
    (build_lp [[1, 2], [3, 4]]).c = List.replicate 2 (0 : ℚ) ++ [-1]
    ∧ ((build_lp [[1, 2], [3, 4]]).lhs_ineq.getD 1 []).getD 0 0 = -(2 : ℚ) := by
  have h := C2_lp_formulation [[1, 2], [3, 4]] 2 rfl
    (by intro row hr; simp at hr; rcases hr with rfl | rfl <;> rfl)
  refine ⟨h.1, ?_⟩
  have h2 := (h.2.2.2.2.2.2 1 (by norm_num)).2.1 0 (by norm_num)
  simpa using h2

/-! ## C3: the verifier reports the first violating deviation -/

/-- The scan returns `Pass` exactly when no strategy in the list violates the
tolerance bound. -/
lemma verify_loop_pass_iff (g_strategy : List (List ℚ)) (values : List ℚ)
    (tol : ℚ) (obj : String) (E : ℚ) (l : List (List Int)) :
    verify_loop g_strategy values tol obj E l = .Pass ↔
      ∀ s ∈ l, ¬ (verifier_alt g_strategy values obj s + tol < E) := by
  induction l with
  | nil => simp [verify_loop]
  | cons s rest ih =>
    by_cases h : verifier_alt g_strategy values obj s + tol < E
    · simp only [verify_loop]
      rw [if_pos h]
      simp only [List.mem_cons]
      constructor
      · intro hc
        exact absurd hc (by simp)
      · intro hall
        exact absurd h (hall s (Or.inl rfl))
    · simp only [verify_loop]
      rw [if_neg h, ih]
      constructor
      · intro hall s2 hs2
        rcases List.mem_cons.1 hs2 with rfl | hs2
        · exact h
        · exact hall s2 hs2
      · intro hall s2 hs2
        exact hall s2 (List.mem_cons_of_mem _ hs2)

/-- If position `i` violates the bound and no earlier position does, the scan
returns the violation at position `i`. -/
lemma verify_loop_first_violation (g_strategy : List (List ℚ))
    (values : List ℚ) (tol : ℚ) (obj : String) (E : ℚ) :
    ∀ (l : List (List Int)) (i : Nat), i < l.length →
      (∀ j, j < i → ¬ (verifier_alt g_strategy values obj (l.getD j []) + tol < E)) →
      verifier_alt g_strategy values obj (l.getD i []) + tol < E →
      verify_loop g_strategy values tol obj E l
        = .Violation (l.getD i [])
            (verifier_alt g_strategy values obj (l.getD i [])) E := by
  intro l
  induction l with
  | nil =>
    intro i hi
    exact absurd hi (by simp)
  | cons s rest ih =>
    intro i hi hprev hviol
    cases i with
    | zero =>
      simp only [List.getD_cons_zero] at hviol ⊢
      simp only [verify_loop]
      rw [if_pos hviol]
    | succ i =>
      have h0 : ¬ (verifier_alt g_strategy values obj s + tol < E) := by
        have h00 := hprev 0 (Nat.succ_pos i)
        simpa using h00
      simp only [List.getD_cons_succ] at hviol ⊢
      simp only [verify_loop]
      rw [if_neg h0]
      exact ih i (by simpa using hi)
        (fun j hj => by
          have hj1 := hprev (j + 1) (Nat.succ_lt_succ hj)
          simpa using hj1) hviol

/-- **C3.** The verifier computes the self-play value
`E* = payoff(candidate, candidate)`, walks the strategy space in enumeration
order, passes iff no pure strategy's payoff against the candidate falls below
`E* − tolerance`, and otherwise reports the first violating pure strategy with
the two compared values. -/
theorem C3_verifier_first_violation (g_strategy : List (List ℚ))
    (values : List ℚ) (tol : ℚ) (obj : String) :
    (verify_equilibrium_general_strategy g_strategy values tol obj = .Pass ↔
      ∀ s ∈ get_pure_strategies (verifier_units g_strategy) values,
        ¬ (verifier_alt g_strategy values obj s + tol
            < get_expected_value_general_strategies g_strategy g_strategy
                values obj))
    ∧ (∀ i, i < (get_pure_strategies (verifier_units g_strategy) values).length →
        (∀ j, j < i →
          ¬ (verifier_alt g_strategy values obj
                ((get_pure_strategies (verifier_units g_strategy) values).getD j [])
              + tol
            < get_expected_value_general_strategies g_strategy g_strategy
                values obj)) →
        verifier_alt g_strategy values obj
            ((get_pure_strategies (verifier_units g_strategy) values).getD i [])
          + tol
          < get_expected_value_general_strategies g_strategy g_strategy
              values obj →
        verify_equilibrium_general_strategy g_strategy values tol obj
          = .Violation
              ((get_pure_strategies (verifier_units g_strategy) values).getD i [])
              (verifier_alt g_strategy values obj
                ((get_pure_strategies (verifier_units g_strategy) values).getD i []))
              (get_expected_value_general_strategies g_strategy g_strategy
                values obj)) := by
  constructor
  · exact verify_loop_pass_iff g_strategy values tol obj _ _
  · intro i hi hprev hviol
    exact verify_loop_first_violation g_strategy values tol obj _ _ i hi
      hprev hviol

/-- **C3 witness**: a concrete non-equilibrium candidate whose first
violating deviation (in enumeration order) is `[0, 2]`. -/
theorem C3_verifier_first_violation_witness :
    verify_equilibrium_general_strategy [[2, 0, 1]] [1, 3] (1/1000000) "score"
      = VerifyResult.Violation [0, 2] 1 2 := by
  have hu : verifier_units [[2, 0, 1]] = 2 := by
    norm_num [verifier_units, pyInt]
  have hss : get_pure_strategies (verifier_units [[2, 0, 1]]) [1, 3]
      = [[0, 2], [1, 1], [2, 0]] := by
    rw [hu]; decide
  have halt : verifier_alt [[2, 0, 1]] [1, 3] "score" [0, 2] = 1 := by
    norm_num [verifier_alt, get_expected_value_general_strategies,
      get_expected_value_pure_strategies, List.range_succ]
  have hE : get_expected_value_general_strategies [[2, 0, 1]] [[2, 0, 1]]
      [1, 3] "score" = 2 := by
    norm_num [get_expected_value_general_strategies,
      get_expected_value_pure_strategies, List.range_succ]
  have h := (C3_verifier_first_violation [[2, 0, 1]] [1, 3]
      (1/1000000) "score").2 0
    (by rw [hss]; norm_num)
    (by intro j hj; exact absurd hj (Nat.not_lt_zero j))
    (by rw [hss]; simp only [List.getD_cons_zero]; rw [halt, hE]; norm_num)
  rw [hss] at h
  simp only [List.getD_cons_zero] at h
  rw [halt, hE] at h
  exact h

/-! ## C1: the strategy space enumerator -/

/-- Membership in `pyRange`. -/
lemma mem_pyRange {x n : Int} : x ∈ pyRange n ↔ 0 ≤ x ∧ x < n := by
  unfold pyRange
  simp only [List.mem_map, List.mem_range]
  constructor
  · rintro ⟨i, hi, rfl⟩
    omega
  · intro h
    exact ⟨x.toNat, by omega, by omega⟩

/-- `pyRange` has no duplicates. -/
lemma pyRange_nodup (n : Int) : (pyRange n).Nodup := by
  unfold pyRange
  exact List.Nodup.map Nat.cast_injective (List.nodup_range _)

/-- Membership in `pyProduct`: exactly the tuples of the right length with
entries from `r`. -/
lemma mem_pyProduct {r : List Int} : ∀ {k : Nat} {l : List Int},
    l ∈ pyProduct r k ↔ l.length = k ∧ ∀ x ∈ l, x ∈ r := by
  intro k
  induction k with
  | zero =>
    intro l
    simp only [pyProduct, List.mem_singleton]
    constructor
    · rintro rfl
      simp
    · rintro ⟨h1, -⟩
      exact List.length_eq_zero.1 h1
  | succ k ih =>
    intro l
    simp only [pyProduct, List.mem_flatMap, List.mem_map]
    constructor
    · rintro ⟨x, hx, t, ht, rfl⟩
      obtain ⟨hlen, hall⟩ := ih.1 ht
      refine ⟨by simp [hlen], ?_⟩
      intro y hy
      rcases List.mem_cons.1 hy with rfl | hy
      · exact hx
      · exact hall y hy
    · rintro ⟨hlen, hall⟩
      cases l with
      | nil => simp at hlen
      | cons x t =>
        exact ⟨x, hall x (List.mem_cons_self _ _), t,
          ih.2 ⟨by simpa using hlen,
            fun y hy => hall y (List.mem_cons_of_mem _ hy)⟩, rfl⟩

/-- `pyProduct` over a duplicate-free list has no duplicates. -/
lemma pyProduct_nodup {r : List Int} (hr : r.Nodup) :
    ∀ k, (pyProduct r k).Nodup := by
  intro k
  induction k with
  | zero => simp [pyProduct]
  | succ k ih =>
    rw [pyProduct]
    apply List.nodup_flatMap.2
    refine ⟨fun x _ => List.Nodup.map (fun t1 t2 h => by simpa using h) ih, ?_⟩
    refine List.Pairwise.imp ?_ hr
    intro a b hab z hza hzb
    simp only [List.mem_map] at hza hzb
    rcases hza with ⟨t1, -, rfl⟩
    rcases hzb with ⟨t2, -, heq⟩
    apply hab
    injection heq with h1 h2
    exact h1.symm

/-- Counting a filter over a `flatMap`, block by block. -/
lemma length_filter_flatMap {α β : Type} (p : β → Bool) (f : α → List β)
    (l : List α) :
    ((l.flatMap f).filter p).length
      = (l.map (fun x => ((f x).filter p).length)).sum := by
  induction l with
  | nil => simp
  | cons x xs ih => simp [List.flatMap_cons, List.filter_append, ih]

/-- A list sum over `List.range` as a `Finset` sum. -/
lemma list_range_map_sum {M : Type} [AddCommMonoid M] (f : Nat → M) :
    ∀ n, ((List.range n).map f).sum = ∑ i ∈ Finset.range n, f i := by
  intro n
  induction n with
  | zero => simp
  | succ n ih =>
    rw [List.range_succ, List.map_append, List.sum_append,
      Finset.sum_range_succ, ih]
    simp

/-- Hockey-stick identity in the form needed for the stars-and-bars count. -/
lemma sum_range_add_choose (j : Nat) :
    ∀ n, ∑ m ∈ Finset.range (n + 1), (m + j).choose j
      = (n + j + 1).choose (j + 1) := by
  intro n
  induction n with
  | zero => simp [Nat.choose_self]
  | succ n ih =>
    rw [Finset.sum_range_succ, ih, Nat.add_right_comm n 1 j,
      Nat.choose_succ_succ (n + j + 1) j]
    simp only [Nat.succ_eq_add_one]
    omega

/-- `pyRange` of a natural bound, written over `List.range`. -/
lemma pyRange_natCast (u : Nat) :
    pyRange ((u : Int) + 1)
      = (List.range (u + 1)).map (fun (i : Nat) => (i : Int)) := by
  unfold pyRange
  have h : ((u : Int) + 1).toNat = u + 1 := by omega
  rw [h]

/-- Tuples drawn from `pyRange` have non-negative sums. -/
lemma pyProduct_sum_nonneg {n : Int} {k : Nat} {t : List Int}
    (ht : t ∈ pyProduct (pyRange n) k) : 0 ≤ t.sum := by
  obtain ⟨-, hall⟩ := mem_pyProduct.1 ht
  apply List.sum_nonneg
  intro x hx
  exact (mem_pyRange.1 (hall x hx)).1

/-- The stars-and-bars count: among all `(j+1)`-tuples over `[0, u]`, exactly
`C(n+j, j)` have sum `n`, provided `n ≤ u`. -/
lemma count_pyProduct (u : Nat) :
    ∀ (j : Nat) (n : Nat), n ≤ u →
      ((pyProduct (pyRange ((u : Int) + 1)) (j + 1)).filter
          (fun l => l.sum == (n : Int))).length
        = (n + j).choose j := by
  intro j
  induction j with
  | zero =>
    intro n hn
    rw [pyProduct, pyRange_natCast u, length_filter_flatMap, List.map_map,
      list_range_map_sum]
    simp only [Function.comp_apply]
    have hterm : ∀ i : Nat, i ∈ Finset.range (u + 1) →
        ((((pyProduct ((List.range (u + 1)).map (fun (i : Nat) => (i : Int))) 0).map
            (fun t => (i : Int) :: t)).filter
            (fun l => l.sum == (n : Int))).length)
          = if i = n then 1 else 0 := by
      intro i _
      simp only [pyProduct, List.map_cons, List.map_nil, List.filter_cons,
        List.filter_nil, List.sum_cons, List.sum_nil, add_zero]
      by_cases h : i = n
      · subst h
        simp
      · have hne : ¬ (((i : Int) == (n : Int)) = true) := by
          simp only [beq_iff_eq]
          omega
        rw [if_neg hne, if_neg h]
        rfl
    rw [Finset.sum_congr rfl hterm, Finset.sum_ite_eq' (Finset.range (u + 1)) n
      (fun _ => 1), if_pos (Finset.mem_range.2 (by omega))]
    simp
  | succ j ih =>
    intro n hn
    rw [pyProduct, pyRange_natCast u, length_filter_flatMap, List.map_map,
      list_range_map_sum]
    simp only [Function.comp_apply]
    have hterm : ∀ i : Nat, i ∈ Finset.range (u + 1) →
        ((((pyProduct ((List.range (u + 1)).map (fun (i : Nat) => (i : Int)))
              (j + 1)).map
            (fun t => (i : Int) :: t)).filter
            (fun l => l.sum == (n : Int))).length)
          = if i ≤ n then ((n - i) + j).choose j else 0 := by
      intro i _
      rw [List.filter_map, List.length_map, ← pyRange_natCast u]
      by_cases h : i ≤ n
      · rw [if_pos h]
        have hcong : ∀ t ∈ pyProduct (pyRange ((u : Int) + 1)) (j + 1),
            ((fun l => l.sum == (n : Int)) ∘ (fun t => (i : Int) :: t)) t
              = (fun l => l.sum == (((n - i : Nat)) : Int)) t := by
          intro t _
          simp only [Function.comp_apply, List.sum_cons]
          rw [Bool.eq_iff_iff]
          simp only [beq_iff_eq]
          omega
        rw [List.filter_congr hcong]
        exact ih (n - i) (by omega)
      · rw [if_neg h]
        rw [List.length_eq_zero.2]
        apply List.filter_eq_nil_iff.2
        intro t ht
        have hnn := pyProduct_sum_nonneg ht
        simp only [Function.comp_apply, List.sum_cons, beq_iff_eq]
        omega
    rw [Finset.sum_congr rfl hterm,
      ← Finset.sum_subset (Finset.range_subset.2 (by omega : n + 1 ≤ u + 1))
        (fun x _ hx => if_neg (by simp at hx; omega))]
    rw [Finset.sum_congr rfl
      (fun i hi => if_pos (by simp at hi; omega))]
    have hrefl := Finset.sum_range_reflect (fun m => (m + j).choose j) (n + 1)
    have hsimp : ∀ i : Nat, n + 1 - 1 - i = n - i := fun i => by omega
    simp only [hsimp] at hrefl
    rw [hrefl, sum_range_add_choose j n]
    rfl

/-- **C1.** For `N ≥ 0` and `K ≥ 1`, the enumerator returns exactly the
length-`K` lists of non-negative integers summing to `N`, without duplicates,
and their number is `C(N+K-1, K-1)`. -/
theorem C1_strategy_space (N K : Nat) (hK : 1 ≤ K) (values : List ℚ)
    (hlen : values.length = K) :
    (∀ l : List Int, l ∈ get_pure_strategies (N : Int) values ↔
        l.length = K ∧ (∀ x ∈ l, 0 ≤ x) ∧ l.sum = (N : Int))
    ∧ (get_pure_strategies (N : Int) values).Nodup
    ∧ (get_pure_strategies (N : Int) values).length
        = (N + K - 1).choose (K - 1) := by
  refine ⟨?_, ?_, ?_⟩
  · intro l
    simp only [get_pure_strategies, List.mem_filter, beq_iff_eq]
    rw [mem_pyProduct]
    constructor
    · rintro ⟨⟨hlen2, hall⟩, hsum⟩
      rw [hlen] at hlen2
      exact ⟨hlen2, fun x hx => (mem_pyRange.1 (hall x hx)).1, hsum⟩
    · rintro ⟨hlen2, hpos, hsum⟩
      refine ⟨⟨by rw [hlen, hlen2], ?_⟩, hsum⟩
      intro x hx
      rw [mem_pyRange]
      have hxs : x ≤ l.sum := List.single_le_sum hpos x hx
      rw [hsum] at hxs
      exact ⟨hpos x hx, by omega⟩
  · exact (pyProduct_nodup (pyRange_nodup _) _).filter _
  · simp only [get_pure_strategies]
    obtain ⟨j, rfl⟩ : ∃ j, K = j + 1 := ⟨K - 1, by omega⟩
    rw [hlen]
    rw [count_pyProduct N j N (le_refl N)]
    have h1 : N + (j + 1) - 1 = N + j := by omega
    rw [h1]
    rfl

/-- **C1 witness.** -/
theorem C1_strategy_space_witness :
    (get_pure_strategies ((2 : Nat) : Int) [1, 2]).length
      = (2 + 2 - 1).choose (2 - 1) :=
  (C1_strategy_space 2 2 (by norm_num) [1, 2] rfl).2.2
end Blotto
